import Mathlib

/-!
Shallow embedding of `src/sys/fanotify.rs` (fanotify event decoding and
permission-response encoding).

Machine integers are modelled as `Nat`/`Int` with explicit wrap-around
(`% 2^64`) where the Rust code can overflow.  Bytes are `Nat`s below 256.
The kernel record `struct fanotify_event_metadata` is 24 bytes on Linux:
`event_len : u32` at offset 0, `vers : u8` at 4, `reserved : u8` at 5,
`metadata_len : u16` at 6, `mask : u64` at 8, `fd : i32` at 16,
`pid : i32` at 20.  Native byte order is little-endian on the supported
Linux targets (x86_64, aarch64).
-/

/-- Linux `FAN_ACCESS` mask bit. -/
def FAN_ACCESS : Nat := 0x00000001

/-- Linux `FAN_MODIFY` mask bit. -/
def FAN_MODIFY : Nat := 0x00000002

/-- Linux `FAN_CLOSE_WRITE` mask bit. -/
def FAN_CLOSE_WRITE : Nat := 0x00000008

/-- Linux `FAN_CLOSE_NOWRITE` mask bit. -/
def FAN_CLOSE_NOWRITE : Nat := 0x00000010

/-- Linux `FAN_OPEN` mask bit. -/
def FAN_OPEN : Nat := 0x00000020

/-- Linux `FAN_Q_OVERFLOW` mask bit. -/
def FAN_Q_OVERFLOW : Nat := 0x00004000

/-- Linux `FAN_OPEN_PERM` mask bit. -/
def FAN_OPEN_PERM : Nat := 0x00010000

/-- Linux `FAN_ACCESS_PERM` mask bit. -/
def FAN_ACCESS_PERM : Nat := 0x00020000

/-- Linux `FAN_ONDIR` mask bit. -/
def FAN_ONDIR : Nat := 0x40000000

/-- Linux `FAN_EVENT_ON_CHILD` mask bit. -/
def FAN_EVENT_ON_CHILD : Nat := 0x08000000

/-- Linux `FAN_CLOSE = FAN_CLOSE_WRITE | FAN_CLOSE_NOWRITE`. -/
def FAN_CLOSE : Nat := FAN_CLOSE_WRITE ||| FAN_CLOSE_NOWRITE

/-- Linux `FAN_NOFD` sentinel: "no descriptor" (`-1`). -/
def FAN_NOFD : Int := -1

/-- Linux `FAN_ALLOW` permission-response code. -/
def FAN_ALLOW_CODE : Nat := 0x01

/-- Linux `FAN_DENY` permission-response code. -/
def FAN_DENY_CODE : Nat := 0x02

/-- The flags named in the `libc_bitflags!` block defining `MaskFlags`. -/
def MaskFlags.knownFlags : List Nat :=
  [FAN_ACCESS, FAN_MODIFY, FAN_CLOSE_WRITE, FAN_CLOSE_NOWRITE, FAN_OPEN,
   FAN_Q_OVERFLOW, FAN_OPEN_PERM, FAN_ACCESS_PERM, FAN_ONDIR,
   FAN_EVENT_ON_CHILD, FAN_CLOSE]

/-- `MaskFlags::all().bits()`: the union of all flags declared in the
`libc_bitflags!` block. -/
def MaskFlags.ALL : Nat :=
  FAN_ACCESS ||| FAN_MODIFY ||| FAN_CLOSE_WRITE ||| FAN_CLOSE_NOWRITE |||
  FAN_OPEN ||| FAN_Q_OVERFLOW ||| FAN_OPEN_PERM ||| FAN_ACCESS_PERM |||
  FAN_ONDIR ||| FAN_EVENT_ON_CHILD ||| FAN_CLOSE

/-- `MaskFlags::from_bits_truncate` (generated by the bitflags macro):
keep the known bits, silently drop the rest. -/
def MaskFlags.from_bits_truncate (bits : Nat) : Nat :=
  bits &&& MaskFlags.ALL

/-- `MaskFlags::contains` (bitflags): `self & other == other`. -/
def MaskFlags.contains (self other : Nat) : Bool :=
  self &&& other == other

/-- `struct FanotifyEvent { mask, file, pid }`.  `file : Option File` is
modelled by the raw descriptor the `File` was constructed from
(`File::from_raw_fd(fd)`). -/
structure FanotifyEvent where
  mask : Nat
  file : Option Int
  pid : Int
deriving Repr, DecidableEq

/-- `FanotifyEvent::overflowed`: `self.file.is_none() ||
self.mask.contains(MaskFlags::FAN_Q_OVERFLOW)`. -/
def FanotifyEvent.overflowed (self : FanotifyEvent) : Bool :=
  self.file.isNone || MaskFlags.contains self.mask FAN_Q_OVERFLOW

/-- The fields of `libc::fanotify_event_metadata` that `read_events`
reads.  (`vers`, `reserved` and `metadata_len`, bytes 4..7 of the
24-byte struct, are never consulted by the code.)  `event_len` is a
`u32`; `mask` is a `u64`; `fd` and `pid` are `i32`. -/
structure fanotify_event_metadata where
  event_len : Nat
  mask : Nat
  fd : Int
  pid : Int
deriving Repr, DecidableEq

/-- `size_of::<libc::fanotify_event_metadata>()` on Linux. -/
def header_size : Nat := 24

/-- The fixed stack buffer capacity `[0u8; 4096]` in `read_events`. -/
def BUF_CAP : Nat := 4096

/-- `usize` modulus for Rust release-mode wrapping arithmetic. -/
def U64 : Nat := 2 ^ 64

/-- Little-endian read of `n` bytes starting at `off` from a byte
function (each byte below 256). -/
def readLE (buf : Nat → Nat) (off : Nat) : Nat → Nat
  | 0 => 0
  | n + 1 => buf off + 256 * readLE buf (off + 1) n

/-- Reinterpret a `u32` bit pattern as an `i32` (two's complement). -/
def toI32 (u : Nat) : Int :=
  if u < 2 ^ 31 then (u : Int) else (u : Int) - 2 ^ 32

/-- The unaligned struct read
`(buffer.as_ptr().add(offset) as *const libc::fanotify_event_metadata).read_unaligned()`:
decode the four used fields from the 24 bytes at `offset`, native
(little-endian) byte order. -/
def read_unaligned_metadata (buf : Nat → Nat) (offset : Nat) :
    fanotify_event_metadata :=
  { event_len := readLE buf offset 4
    mask := readLE buf (offset + 8) 8
    fd := toI32 (readLE buf (offset + 16) 4)
    pid := toI32 (readLE buf (offset + 20) 4) }

/-- The `FanotifyEvent` pushed for one decoded record:
`file` is `Some(File::from_raw_fd(fd))` unless `fd == FAN_NOFD`,
`mask` is `MaskFlags::from_bits_truncate(event.mask)`,
`pid` is copied. -/
def mkFanotifyEvent (event : fanotify_event_metadata) : FanotifyEvent :=
  { file := if event.fd ≠ FAN_NOFD then some event.fd else none
    mask := MaskFlags.from_bits_truncate event.mask
    pid := event.pid }

/-- Outcome of one `read_events` call over the bytes a read returned.
`ok` is the `Ok(events)` return; `oob` marks the undefined behaviour of
dereferencing past the end of the 4096-byte stack buffer (the source
has no bounds check there); `diverge` means the given fuel was
exhausted without the loop terminating (the source loop has no other
exit). -/
inductive ReadOutcome where
  | ok (events : List FanotifyEvent)
  | oob
  | diverge
deriving Repr, DecidableEq

/-- The decode loop of `Fanotify::read_events`:
`while (nread - offset) >= header_size` with `usize` (release-mode
wrapping) subtraction; read the metadata struct at `offset`, push one
event, then `offset += event.event_len as usize`.  A struct read that
would dereference beyond the 4096-byte buffer is `oob`.  `fuel` bounds
the number of iterations the model unfolds; the source loop is
unbounded. -/
def read_events_loop (buf : Nat → Nat) (nread : Nat) :
    Nat → Nat → ReadOutcome
  | _, 0 => .diverge
  | offset, fuel + 1 =>
    if header_size ≤ (nread + U64 - offset) % U64 then
      if offset + header_size ≤ BUF_CAP then
        let event := read_unaligned_metadata buf offset
        match read_events_loop buf nread ((offset + event.event_len) % U64)
            fuel with
        | .ok events => .ok (mkFanotifyEvent event :: events)
        | r => r
      else .oob
    else .ok []

/-- The byte function backing the stack buffer: `[0u8; 4096]` filled by
`read` with the first `min data.length 4096` bytes of `data`; bytes
past the read region remain 0.  Each byte is reduced below 256. -/
def bufOf (data : List Nat) : Nat → Nat :=
  fun i => (data.take BUF_CAP).getD i 0 % 256

/-- `Fanotify::read_events` after the `read` call returned the bytes
`data` (at most 4096 of them are received): run the decode loop from
offset 0. -/
def read_events (data : List Nat) (fuel : Nat) : ReadOutcome :=
  read_events_loop (bufOf data) (min data.length BUF_CAP) 0 fuel

/-- The offsets at which `read_events_loop` performs a struct read,
same recursion as the loop. -/
def read_events_loop_offsets (buf : Nat → Nat) (nread : Nat) :
    Nat → Nat → List Nat
  | _, 0 => []
  | offset, fuel + 1 =>
    if header_size ≤ (nread + U64 - offset) % U64 then
      if offset + header_size ≤ BUF_CAP then
        offset :: read_events_loop_offsets buf nread
          ((offset + (read_unaligned_metadata buf offset).event_len) % U64)
          fuel
      else []
    else []

/-- The offsets of the records `read_events` decodes from `data`. -/
def read_events_offsets (data : List Nat) (fuel : Nat) : List Nat :=
  read_events_loop_offsets (bufOf data) (min data.length BUF_CAP) 0 fuel

/-- `i32::to_ne_bytes` on the supported Linux targets (little-endian):
the two's-complement bit pattern, low byte first. -/
def i32_to_ne_bytes (x : Int) : List Nat :=
  [(x % (2 ^ 32 : Int)).toNat % 256,
   (x % (2 ^ 32 : Int)).toNat / 256 % 256,
   (x % (2 ^ 32 : Int)).toNat / 2 ^ 16 % 256,
   (x % (2 ^ 32 : Int)).toNat / 2 ^ 24 % 256]

/-- `u32::to_ne_bytes` (little-endian), low byte first. -/
def u32_to_ne_bytes (u : Nat) : List Nat :=
  [u % 256, u / 256 % 256, u / 2 ^ 16 % 256, u / 2 ^ 24 % 256]

/-- `enum FanotifyPermissionResponse { FAN_ALLOW, FAN_DENY }`. -/
inductive FanotifyPermissionResponse where
  | FAN_ALLOW
  | FAN_DENY
deriving Repr, DecidableEq

/-- The `#[repr(u32)]` discriminant of the enum: `response as u32`. -/
def FanotifyPermissionResponse.as_u32 : FanotifyPermissionResponse → Nat
  | .FAN_ALLOW => FAN_ALLOW_CODE
  | .FAN_DENY => FAN_DENY_CODE

/-- `struct FanotifyResponse { fd: RawFd, response }`. -/
structure FanotifyResponse where
  fd : Int
  response : FanotifyPermissionResponse

/-- The byte vector `Fanotify::respond` builds before writing:
`response.fd.to_ne_bytes()` with `(response.response as u32).to_ne_bytes()`
appended. -/
def response_bytes (response : FanotifyResponse) : List Nat :=
  i32_to_ne_bytes response.fd ++ u32_to_ne_bytes response.response.as_u32

/-- One result of an underlying `write` call on the fanotify
descriptor: `Ok(n)`, `Err(ErrorKind::Interrupted)`, or a fatal error. -/
inductive WriteStep where
  | wrote (n : Nat)
  | interrupted
  | fatal

/-- Modelled from the spec: `respond` flushes via `Write::write_all`,
which is standard-library code not present under `src/`; the spec says
"a short write during response encoding must be retried internally
until complete or an IoError is raised".  The modelled loop: while the
buffer is non-empty call `write`; `Ok(0)` is a `WriteZero` error,
`Ok(n)` consumes the `n` flushed bytes and retries the rest,
`Interrupted` is retried, any other error propagates.  `steps` is the
sequence of results the descriptor produces.  On success the result is
`some` of the byte sequence actually flushed to the descriptor; `none`
is an error (an exhausted oracle with bytes still pending is also an
error, standing for an eventual fatal result). -/
def write_all : List WriteStep → List Nat → Option (List Nat)
  | _, [] => some []
  | [], _ :: _ => none
  | .wrote n :: steps, b :: buf =>
    if n = 0 then none
    else
      match write_all steps (List.drop n (b :: buf)) with
      | some w => some (List.take n (b :: buf) ++ w)
      | none => none
  | .interrupted :: steps, b :: buf => write_all steps (b :: buf)
  | .fatal :: _, _ :: _ => none

lemma write_all_some (steps : List WriteStep) :
    ∀ (buf w : List Nat), write_all steps buf = some w → w = buf := by
  induction steps with
  | nil =>
    intro buf w h
    cases buf with
    | nil => simpa [write_all] using h.symm
    | cons b bs => simp [write_all] at h
  | cons s steps ih =>
    intro buf w h
    cases buf with
    | nil => simpa [write_all] using h.symm
    | cons b bs =>
      cases s with
      | wrote n =>
        by_cases hn : n = 0
        · simp [write_all, hn] at h
        · rw [write_all, if_neg hn] at h
          cases hrec : write_all steps (List.drop n (b :: bs)) with
          | none => rw [hrec] at h; simp at h
          | some w' =>
            rw [hrec] at h
            simp only [Option.some.injEq] at h
            have := ih _ _ hrec
            subst this
            rw [← h, List.take_append_drop]
      | interrupted =>
        rw [write_all] at h
        exact ih _ _ h
      | fatal => simp [write_all] at h

lemma contains_of_and_all (raw f : Nat) (hf : MaskFlags.ALL &&& f = f) :
    MaskFlags.contains (MaskFlags.from_bits_truncate raw) f =
      MaskFlags.contains raw f := by
  unfold MaskFlags.contains MaskFlags.from_bits_truncate
  rw [Nat.and_assoc, hf]

/-- C4: a record whose `fd` field is the `FAN_NOFD` sentinel — and only
such a record — decodes to an event with `file = None`, and on that
event `overflowed()` returns `true`. -/
theorem nofd_record_decodes_fileless (m : fanotify_event_metadata) :
    ((mkFanotifyEvent m).file = none ↔ m.fd = FAN_NOFD) ∧
      (m.fd = FAN_NOFD →
        (mkFanotifyEvent m).file = none ∧
          (mkFanotifyEvent m).overflowed = true) := by
  constructor
  · by_cases h : m.fd = FAN_NOFD <;> simp [mkFanotifyEvent, h]
  · intro h
    simp [mkFanotifyEvent, FanotifyEvent.overflowed, h]

/-- C4 witness: the sentinel record `{event_len 24, mask 0, fd -1, pid 42}`
decodes to a fileless event on which `overflowed()` holds. -/
theorem nofd_record_decodes_fileless_witness :
    (mkFanotifyEvent ⟨24, 0, -1, 42⟩).file = none ∧
      (mkFanotifyEvent ⟨24, 0, -1, 42⟩).overflowed = true :=
  (nofd_record_decodes_fileless ⟨24, 0, -1, 42⟩).2 rfl

/-- C5: a record whose raw 64-bit mask field contains `FAN_Q_OVERFLOW`
decodes (whatever its descriptor field) to an event on which
`overflowed()` returns `true`. -/
theorem overflow_bit_implies_overflowed (m : fanotify_event_metadata)
    (h : MaskFlags.contains m.mask FAN_Q_OVERFLOW = true) :
    (mkFanotifyEvent m).overflowed = true := by
  have hmask : MaskFlags.contains (mkFanotifyEvent m).mask FAN_Q_OVERFLOW = true := by
    unfold MaskFlags.contains at h ⊢
    show (MaskFlags.from_bits_truncate m.mask &&& FAN_Q_OVERFLOW == FAN_Q_OVERFLOW) = true
    unfold MaskFlags.from_bits_truncate
    rw [Nat.and_assoc,
      show MaskFlags.ALL &&& FAN_Q_OVERFLOW = FAN_Q_OVERFLOW by decide]
    exact h
  unfold FanotifyEvent.overflowed
  rw [hmask, Bool.or_true]

/-- C5 witness: a record with mask `FAN_Q_OVERFLOW` and a present
descriptor (`fd = 5`) still decodes to an overflowed event. -/
theorem overflow_bit_implies_overflowed_witness :
    (mkFanotifyEvent ⟨24, FAN_Q_OVERFLOW, 5, 1⟩).overflowed = true :=
  overflow_bit_implies_overflowed ⟨24, FAN_Q_OVERFLOW, 5, 1⟩ (by decide)

/-- C7: truncating decode of the 64-bit mask never rejects: unknown
bits are dropped (the result only holds bits of `MaskFlags::all()`),
and `contains` for every flag known to the definition agrees between
the truncated mask and the raw field. -/
theorem from_bits_truncate_known_flags (raw f : Nat)
    (hf : f ∈ MaskFlags.knownFlags) :
    MaskFlags.from_bits_truncate raw &&& MaskFlags.ALL =
        MaskFlags.from_bits_truncate raw ∧
      MaskFlags.contains (MaskFlags.from_bits_truncate raw) f =
        MaskFlags.contains raw f := by
  constructor
  · unfold MaskFlags.from_bits_truncate
    rw [Nat.and_assoc, show MaskFlags.ALL &&& MaskFlags.ALL = MaskFlags.ALL by decide]
  · apply contains_of_and_all
    fin_cases hf <;> decide

/-- C7 witness: with every one of the 64 mask bits set, the truncated
mask still answers `contains FAN_CLOSE` the same way the raw field
does. -/
theorem from_bits_truncate_known_flags_witness :
    MaskFlags.from_bits_truncate 0xFFFFFFFFFFFFFFFF &&& MaskFlags.ALL =
        MaskFlags.from_bits_truncate 0xFFFFFFFFFFFFFFFF ∧
      MaskFlags.contains (MaskFlags.from_bits_truncate 0xFFFFFFFFFFFFFFFF)
          FAN_CLOSE =
        MaskFlags.contains 0xFFFFFFFFFFFFFFFF FAN_CLOSE :=
  from_bits_truncate_known_flags 0xFFFFFFFFFFFFFFFF FAN_CLOSE (by decide)

lemma response_bytes_length (r : FanotifyResponse) :
    (response_bytes r).length = 8 := rfl

/-- C6: `respond` always encodes exactly 8 bytes — the native-order
`i32` descriptor followed by the native-order `u32` verdict code — and
on target 7 the allow/deny encodings are byte-exact. -/
theorem respond_encoding (r : FanotifyResponse) :
    (response_bytes r).length = 8 ∧
      response_bytes r =
        i32_to_ne_bytes r.fd ++ u32_to_ne_bytes r.response.as_u32 ∧
      response_bytes ⟨7, .FAN_ALLOW⟩ =
        i32_to_ne_bytes 7 ++ u32_to_ne_bytes FAN_ALLOW_CODE ∧
      response_bytes ⟨7, .FAN_ALLOW⟩ = [7, 0, 0, 0, 1, 0, 0, 0] ∧
      response_bytes ⟨7, .FAN_DENY⟩ = [7, 0, 0, 0, 2, 0, 0, 0] := by
  refine ⟨response_bytes_length r, rfl, rfl, by decide, by decide⟩

/-- C9: whenever the modelled `write_all` loop reports success for the
encoded response, the bytes flushed to the descriptor are exactly the
full 8-byte response — success after a short write is impossible. -/
theorem respond_write_all_complete (steps : List WriteStep)
    (r : FanotifyResponse) (w : List Nat)
    (h : write_all steps (response_bytes r) = some w) :
    w = response_bytes r ∧ w.length = 8 := by
  have hw := write_all_some steps (response_bytes r) w h
  subst hw
  exact ⟨rfl, response_bytes_length r⟩

/-- C9 witness: flushing `Response{fd 7, allow}` through a short write
of 3 bytes, an interruption, then 5 bytes succeeds with exactly the
full 8-byte sequence on the descriptor. -/
theorem respond_write_all_complete_witness :
    [7, 0, 0, 0, 1, 0, 0, 0] = response_bytes ⟨7, .FAN_ALLOW⟩ ∧
      ([7, 0, 0, 0, 1, 0, 0, 0] : List Nat).length = 8 :=
  respond_write_all_complete
    [.wrote 3, .interrupted, .wrote 5] ⟨7, .FAN_ALLOW⟩
    [7, 0, 0, 0, 1, 0, 0, 0] (by decide)

/-- C8: a read that returns fewer bytes than one record header —
including zero bytes — decodes to `Ok` with an empty event list; it is
not an error. -/
theorem short_read_yields_no_events (data : List Nat) (fuel : Nat)
    (hlen : data.length < header_size) (hfuel : 1 ≤ fuel) :
    read_events data fuel = .ok [] := by
  obtain ⟨f, rfl⟩ : ∃ f, fuel = f + 1 := ⟨fuel - 1, by omega⟩
  unfold read_events read_events_loop
  unfold header_size at hlen
  rw [show min data.length BUF_CAP = data.length by unfold BUF_CAP; omega]
  rw [show (data.length + U64 - 0) % U64 = data.length by unfold U64; omega]
  rw [if_neg (by unfold header_size; omega)]

/-- C8 witness: a zero-byte read and a 3-byte read each decode to
`Ok([])`. -/
theorem short_read_yields_no_events_witness :
    read_events [] 1 = .ok [] ∧ read_events [1, 2, 3] 1 = .ok [] :=
  ⟨short_read_yields_no_events [] 1 (by decide) (by decide),
   short_read_yields_no_events [1, 2, 3] 1 (by decide) (by decide)⟩

lemma zero24_loop_diverges (f : Nat) :
    read_events_loop (bufOf (List.replicate 24 0)) 24 0 f = .diverge := by
  induction f with
  | zero => rfl
  | succ f ih =>
    rw [read_events_loop]
    rw [if_pos (by unfold U64 header_size; omega)]
    rw [if_pos (by unfold BUF_CAP header_size; omega)]
    have he : ((0 : Nat) +
        (read_unaligned_metadata (bufOf (List.replicate 24 0)) 0).event_len) %
          U64 = 0 := by decide
    simp only [he, ih]

/-- C1 (code behaviour at the failing input): on a buffer holding one
record whose declared `event_len` is 0 — 24 zero bytes — the decode
loop never terminates for any iteration bound: the offset stops
advancing and `read_events` neither returns nor reports an error,
instead of failing with the fatal decode error the spec requires. -/
theorem zero_event_len_never_terminates (fuel : Nat) :
    read_events (List.replicate 24 0) fuel = .diverge := by
  unfold read_events
  rw [show min (List.replicate 24 (0 : Nat)).length BUF_CAP = 24 by decide]
  exact zero24_loop_diverges fuel

/-- C2 (code behaviour at the failing input): on a 24-byte buffer whose
single record declares `event_len = 5000`, the loop's wrapping `usize`
subtraction keeps the loop alive past the received bytes and the next
unaligned struct read dereferences offset 5000 of the 4096-byte stack
buffer — out of bounds.  No `DecodeError` is ever produced: the code
has no such error path. -/
theorem oversized_event_len_reads_oob (fuel : Nat) (hfuel : 2 ≤ fuel) :
    read_events (136 :: 19 :: 0 :: 0 :: List.replicate 20 0) fuel =
      .oob := by
  obtain ⟨f, rfl⟩ : ∃ f, fuel = f + 2 := ⟨fuel - 2, by omega⟩
  unfold read_events
  rw [show min (136 :: 19 :: 0 :: 0 :: List.replicate 20 (0 : Nat)).length
      BUF_CAP = 24 by decide]
  rw [read_events_loop]
  rw [if_pos (by unfold U64 header_size; omega)]
  rw [if_pos (by unfold BUF_CAP header_size; omega)]
  have he : ((0 : Nat) +
      (read_unaligned_metadata
        (bufOf (136 :: 19 :: 0 :: 0 :: List.replicate 20 0)) 0).event_len) %
        U64 = 5000 := by decide
  simp only [he]
  rw [read_events_loop]
  rw [if_pos (by unfold U64 header_size; omega)]
  rw [if_neg (by unfold BUF_CAP header_size; omega)]

/-- C2 witness: two loop iterations suffice to reach the out-of-bounds
dereference on that buffer. -/
theorem oversized_event_len_reads_oob_witness :
    read_events (136 :: 19 :: 0 :: 0 :: List.replicate 20 0) 2 = .oob :=
  oversized_event_len_reads_oob 2 (by decide)

/-- Little-endian encoding of `v` in `n` bytes (the kernel's wire
layout for the header fields on the supported targets). -/
def encodeLE : Nat → Nat → List Nat
  | 0, _ => []
  | n + 1, v => v % 256 :: encodeLE n (v / 256)

/-- Two's-complement `u32` bit pattern of an `i32` value. -/
def i32bits (x : Int) : Nat := (x % (2 ^ 32 : Int)).toNat

/-- A synthetic kernel record: the four header fields `read_events`
uses, the four raw bytes it skips (`vers`, `reserved`, `metadata_len`),
and the variable-length trailing bytes the declared length covers. -/
structure FanRecord where
  event_len : Nat
  hdr4 : List Nat
  mask : Nat
  fd : Int
  pid : Int
  tail : List Nat

/-- Wire serialization of one record. -/
def encodeRecord (r : FanRecord) : List Nat :=
  encodeLE 4 r.event_len ++
    (r.hdr4 ++
      (encodeLE 8 r.mask ++
        (encodeLE 4 (i32bits r.fd) ++ (encodeLE 4 (i32bits r.pid) ++ r.tail))))

/-- A well-formed record: the declared length is exactly the header
size plus the trailing length, each field fits its wire type, and the
raw byte lists hold bytes. -/
def FanRecord.wf (r : FanRecord) : Prop :=
  r.event_len = header_size + r.tail.length ∧
    r.hdr4.length = 4 ∧ (∀ b ∈ r.hdr4, b < 256) ∧
    r.mask < 2 ^ 64 ∧
    -2 ^ 31 ≤ r.fd ∧ r.fd < 2 ^ 31 ∧
    -2 ^ 31 ≤ r.pid ∧ r.pid < 2 ^ 31 ∧
    (∀ b ∈ r.tail, b < 256)

/-- The event one record is expected to decode to. -/
def FanRecord.toEvent (r : FanRecord) : FanotifyEvent :=
  mkFanotifyEvent
    { event_len := r.event_len, mask := r.mask, fd := r.fd, pid := r.pid }

/-- The byte function holds `bs` starting at `off`. -/
def bytesAt (buf : Nat → Nat) (off : Nat) (bs : List Nat) : Prop :=
  ∀ i < bs.length, buf (off + i) = bs.getD i 0

lemma encodeLE_length (n v : Nat) : (encodeLE n v).length = n := by
  induction n generalizing v with
  | zero => rfl
  | succ n ih => simp [encodeLE, ih]

lemma encodeLE_lt (n v : Nat) : ∀ b ∈ encodeLE n v, b < 256 := by
  induction n generalizing v with
  | zero => simp [encodeLE]
  | succ n ih =>
    intro b hb
    rcases List.mem_cons.mp hb with h | h
    · subst h; exact Nat.mod_lt _ (by norm_num)
    · exact ih _ b h

lemma bytesAt_append_left (buf : Nat → Nat) (off : Nat) (a b : List Nat)
    (h : bytesAt buf off (a ++ b)) : bytesAt buf off a := by
  intro i hi
  have := h i (by simp; omega)
  rwa [List.getD_append _ _ _ _ hi] at this

lemma bytesAt_append_right (buf : Nat → Nat) (off : Nat) (a b : List Nat)
    (h : bytesAt buf off (a ++ b)) : bytesAt buf (off + a.length) b := by
  intro i hi
  have := h (a.length + i) (by simp; omega)
  rw [← Nat.add_assoc] at this
  rw [this]
  rw [List.getD_append_right _ _ _ _ (by omega)]
  congr 1
  omega

lemma readLE_of_bytesAt (n : Nat) : ∀ (buf : Nat → Nat) (off v : Nat),
    bytesAt buf off (encodeLE n v) → v < 256 ^ n →
    readLE buf off n = v := by
  induction n with
  | zero =>
    intro buf off v _ hv
    interval_cases v
    rfl
  | succ n ih =>
    intro buf off v hb hv
    have h0 : buf off = v % 256 := by
      have := hb 0 (by simp [encodeLE_length])
      simpa [encodeLE] using this
    have hrest : bytesAt buf (off + 1) (encodeLE n (v / 256)) := by
      intro i hi
      have := hb (i + 1) (by simp [encodeLE_length] at hi ⊢; omega)
      rw [show off + (i + 1) = off + 1 + i by omega] at this
      simpa [encodeLE] using this
    have hdiv : v / 256 < 256 ^ n := by
      rw [pow_succ] at hv
      omega
    rw [readLE, h0, ih buf (off + 1) (v / 256) hrest hdiv]
    omega

lemma toI32_i32bits (x : Int) (h1 : -2 ^ 31 ≤ x) (h2 : x < 2 ^ 31) :
    toI32 (i32bits x) = x := by
  unfold toI32 i32bits
  split <;> omega

lemma i32bits_lt (x : Int) : i32bits x < 2 ^ 32 := by
  unfold i32bits; omega

lemma encodeRecord_length (r : FanRecord) (hr : r.wf) :
    (encodeRecord r).length = r.event_len := by
  obtain ⟨hel, hh4, -⟩ := hr
  simp [encodeRecord, encodeLE_length, hh4, hel, header_size]
  omega

lemma read_metadata_of_record (buf : Nat → Nat) (off : Nat) (r : FanRecord)
    (hr : r.wf) (hb : bytesAt buf off (encodeRecord r))
    (hlen : r.event_len < 2 ^ 32) :
    read_unaligned_metadata buf off =
      ⟨r.event_len, r.mask, r.fd, r.pid⟩ := by
  obtain ⟨hel, hh4, -, hm, hfd1, hfd2, hp1, hp2, -⟩ := hr
  unfold encodeRecord at hb
  have h1 := bytesAt_append_left _ _ _ _ hb
  have hb2 := bytesAt_append_right _ _ _ _ hb
  rw [encodeLE_length] at hb2
  have hb3 := bytesAt_append_right _ _ _ _ hb2
  rw [hh4] at hb3
  have h2 := bytesAt_append_left _ _ _ _ hb3
  have hb4 := bytesAt_append_right _ _ _ _ hb3
  rw [encodeLE_length] at hb4
  have h3 := bytesAt_append_left _ _ _ _ hb4
  have hb5 := bytesAt_append_right _ _ _ _ hb4
  rw [encodeLE_length] at hb5
  have h4 := bytesAt_append_left _ _ _ _ hb5
  have e1 : readLE buf off 4 = r.event_len :=
    readLE_of_bytesAt 4 buf off r.event_len h1 (by norm_num at hlen ⊢; omega)
  have e2 : readLE buf (off + 8) 8 = r.mask := by
    have := readLE_of_bytesAt 8 buf (off + 4 + 4) r.mask h2
      (by norm_num at hm ⊢; omega)
    rwa [show off + 4 + 4 = off + 8 by omega] at this
  have e3 : readLE buf (off + 16) 4 = i32bits r.fd := by
    have := readLE_of_bytesAt 4 buf (off + 4 + 4 + 8) (i32bits r.fd) h3
      (by have := i32bits_lt r.fd; norm_num at this ⊢; omega)
    rwa [show off + 4 + 4 + 8 = off + 16 by omega] at this
  have e4 : readLE buf (off + 20) 4 = i32bits r.pid := by
    have := readLE_of_bytesAt 4 buf (off + 4 + 4 + 8 + 4) (i32bits r.pid) h4
      (by have := i32bits_lt r.pid; norm_num at this ⊢; omega)
    rwa [show off + 4 + 4 + 8 + 4 = off + 20 by omega] at this
  unfold read_unaligned_metadata
  rw [e1, e2, e3, e4, toI32_i32bits r.fd hfd1 hfd2, toI32_i32bits r.pid hp1 hp2]

lemma read_events_loop_records (rs : List FanRecord) :
    ∀ (buf : Nat → Nat) (nread offset fuel : Nat),
      (∀ r ∈ rs, r.wf) →
      bytesAt buf offset (rs.map encodeRecord).flatten →
      offset + ((rs.map encodeRecord).flatten).length = nread →
      nread ≤ BUF_CAP →
      rs.length < fuel →
      read_events_loop buf nread offset fuel =
        .ok (rs.map FanRecord.toEvent) := by
  induction rs with
  | nil =>
    intro buf nread offset fuel _ _ hend hcap hfuel
    obtain ⟨f, rfl⟩ : ∃ f, fuel = f + 1 := ⟨fuel - 1, by omega⟩
    simp only [List.map_nil, List.flatten_nil, List.length_nil] at hend
    rw [read_events_loop]
    rw [if_neg (by unfold U64 header_size; unfold BUF_CAP at hcap; omega)]
    simp
  | cons r rs ih =>
    intro buf nread offset fuel hwf hb hend hcap hfuel
    obtain ⟨f, rfl⟩ : ∃ f, fuel = f + 1 := ⟨fuel - 1, by omega⟩
    have hrwf : r.wf := hwf r (by simp)
    have hLlen : (encodeRecord r).length = r.event_len :=
      encodeRecord_length r hrwf
    simp only [List.map_cons, List.flatten_cons, List.length_append] at hb hend
    have hb1 := bytesAt_append_left _ _ _ _ hb
    have hb2 := bytesAt_append_right _ _ _ _ hb
    rw [hLlen] at hb2
    have hcap' : nread ≤ 4096 := by unfold BUF_CAP at hcap; exact hcap
    have hofn : offset + 24 ≤ nread := by
      obtain ⟨hel, -⟩ := hrwf
      unfold header_size at hel
      omega
    have heln : offset + r.event_len ≤ nread := by
      rw [← hLlen]; omega
    rw [read_events_loop]
    rw [if_pos (by unfold U64 header_size; omega)]
    rw [if_pos (by unfold BUF_CAP header_size; omega)]
    have hmeta := read_metadata_of_record buf offset r hrwf hb1 (by omega)
    simp only [hmeta]
    have hoff' : (offset + r.event_len) % U64 = offset + r.event_len := by
      unfold U64; omega
    rw [hoff']
    rw [ih buf nread (offset + r.event_len) f
      (fun x hx => hwf x (by simp [hx])) hb2 (by omega) hcap
      (by simp only [List.length_cons] at hfuel; omega)]
    rfl

lemma encodeRecord_bytes_lt (r : FanRecord) (hr : r.wf) :
    ∀ b ∈ encodeRecord r, b < 256 := by
  obtain ⟨-, -, hh4, -, -, -, -, -, ht⟩ := hr
  intro b hb
  unfold encodeRecord at hb
  simp only [List.mem_append] at hb
  rcases hb with h | h | h | h | h | h
  · exact encodeLE_lt _ _ b h
  · exact hh4 b h
  · exact encodeLE_lt _ _ b h
  · exact encodeLE_lt _ _ b h
  · exact encodeLE_lt _ _ b h
  · exact ht b h

/-- C3: a buffer that is the concatenation of `k` well-formed records —
each declaring its exact total length, the lengths summing to the
buffer length (at most the 4096-byte capacity) — decodes to `Ok` of
exactly `k` events, in record order, each event's mask, file presence
and pid taken from its record's fields. -/
theorem read_events_roundtrip (rs : List FanRecord) (fuel : Nat)
    (hwf : ∀ r ∈ rs, r.wf)
    (hlen : ((rs.map encodeRecord).flatten).length ≤ BUF_CAP)
    (hfuel : rs.length < fuel) :
    read_events ((rs.map encodeRecord).flatten) fuel =
        .ok (rs.map FanRecord.toEvent) ∧
      (rs.map FanRecord.toEvent).length = rs.length := by
  refine ⟨?_, by simp⟩
  unfold read_events
  have hbytes : ∀ b ∈ (rs.map encodeRecord).flatten, b < 256 := by
    intro b hb
    rw [List.mem_flatten] at hb
    obtain ⟨l, hl, hbl⟩ := hb
    rw [List.mem_map] at hl
    obtain ⟨r, hr, rfl⟩ := hl
    exact encodeRecord_bytes_lt r (hwf r hr) b hbl
  have hba : bytesAt (bufOf ((rs.map encodeRecord).flatten)) 0
      ((rs.map encodeRecord).flatten) := by
    intro i hi
    unfold bufOf
    rw [List.take_of_length_le (by unfold BUF_CAP at hlen ⊢; omega)]
    rw [Nat.zero_add]
    have hmem : ((rs.map encodeRecord).flatten).getD i 0 ∈
        (rs.map encodeRecord).flatten := by
      rw [List.getD_eq_getElem _ _ hi]
      exact List.getElem_mem hi
    have := hbytes _ hmem
    omega
  rw [min_eq_left hlen]
  exact read_events_loop_records rs _ _ 0 fuel hwf hba (by omega) hlen hfuel

/-- C3 witness: a single well-formed record (`event_len 24`, mask
`FAN_OPEN`, `fd 5`, `pid 100`) decodes to exactly its one event. -/
theorem read_events_roundtrip_witness :
    read_events (([⟨24, [3, 0, 0, 0], 32, 5, 100, []⟩].map
          encodeRecord).flatten) 2 =
        .ok ([⟨24, [3, 0, 0, 0], 32, 5, 100, []⟩].map FanRecord.toEvent) ∧
      (([⟨24, [3, 0, 0, 0], 32, 5, 100, []⟩] : List FanRecord).map
          FanRecord.toEvent).length =
        ([⟨24, [3, 0, 0, 0], 32, 5, 100, []⟩] : List FanRecord).length :=
  read_events_roundtrip [⟨24, [3, 0, 0, 0], 32, 5, 100, []⟩] 2
    (by
      intro r hr
      simp only [List.mem_singleton] at hr
      subst hr
      exact ⟨rfl, rfl, by decide, by decide, by decide, by decide,
        by decide, by decide, by decide⟩)
    (by decide) (by decide)

lemma readLE_lt (buf : Nat → Nat) (h : ∀ i, buf i < 256) :
    ∀ (n off : Nat), readLE buf off n < 256 ^ n := by
  intro n
  induction n with
  | zero => intro off; simp [readLE]
  | succ n ih =>
    intro off
    have h1 : readLE buf (off + 1) n + 1 ≤ 256 ^ n := ih (off + 1)
    have h2 : 256 * (readLE buf (off + 1) n + 1) ≤ 256 * 256 ^ n :=
      Nat.mul_le_mul_left _ h1
    have h3 := h off
    rw [readLE, pow_succ]
    linarith

lemma read_events_loop_count (buf : Nat → Nat) (nread : Nat)
    (hbyte : ∀ i, buf i < 256) :
    ∀ (fuel offset : Nat) (evs : List FanotifyEvent),
      read_events_loop buf nread offset fuel = .ok evs →
      (∀ off ∈ read_events_loop_offsets buf nread offset fuel,
        header_size ≤ (read_unaligned_metadata buf off).event_len) →
      header_size * evs.length + min offset BUF_CAP ≤ BUF_CAP := by
  intro fuel
  induction fuel with
  | zero =>
    intro offset evs h
    simp [read_events_loop] at h
  | succ f ih =>
    intro offset evs h hoff
    rw [read_events_loop] at h
    rw [read_events_loop_offsets] at hoff
    by_cases hc : header_size ≤ (nread + U64 - offset) % U64
    case neg =>
      rw [if_neg hc] at h
      have hevs : evs = [] := by
        simpa using (ReadOutcome.ok.injEq _ _).mp h.symm
      subst hevs
      simp only [List.length_nil, Nat.mul_zero, Nat.zero_add]
      exact min_le_right _ _
    case pos =>
      rw [if_pos hc] at h hoff
      by_cases hbnd : offset + header_size ≤ BUF_CAP
      case neg =>
        rw [if_neg hbnd] at h
        simp at h
      case pos =>
        rw [if_pos hbnd] at h hoff
        have hel := hoff offset (by simp)
        have hlt : (read_unaligned_metadata buf offset).event_len < 2 ^ 32 := by
          unfold read_unaligned_metadata
          have := readLE_lt buf hbyte 4 offset
          norm_num at this ⊢
          omega
        have hmod : (offset + (read_unaligned_metadata buf offset).event_len) %
            U64 = offset + (read_unaligned_metadata buf offset).event_len := by
          unfold U64
          unfold BUF_CAP header_size at hbnd
          omega
        simp only [] at h
        rw [hmod] at h hoff
        cases hrec : read_events_loop buf nread
            (offset + (read_unaligned_metadata buf offset).event_len) f with
        | ok es =>
          rw [hrec] at h
          have hevs : evs =
              mkFanotifyEvent (read_unaligned_metadata buf offset) :: es := by
            simpa using (ReadOutcome.ok.injEq _ _).mp h.symm
          subst hevs
          have ihh := ih
            (offset + (read_unaligned_metadata buf offset).event_len) es hrec
            (fun o ho => hoff o (by simp [ho]))
          simp only [List.length_cons]
          unfold header_size BUF_CAP at *
          omega
        | oob => rw [hrec] at h; simp at h
        | diverge => rw [hrec] at h; simp at h

/-- C10: whenever one `read_events` call returns `Ok` and every record
it decoded declared an `event_len` of at least the header size, the
event list holds at most `4096 / 24 = 170` events: a call performs one
read into the fixed 4096-byte buffer and each iteration then advances
the offset by at least the header size. -/
theorem read_events_bounded_count (data : List Nat) (fuel : Nat)
    (evs : List FanotifyEvent)
    (hok : read_events data fuel = .ok evs)
    (hmin : ∀ off ∈ read_events_offsets data fuel,
      header_size ≤ (read_unaligned_metadata (bufOf data) off).event_len) :
    evs.length ≤ 170 := by
  have h256 : ∀ i, bufOf data i < 256 := fun i => Nat.mod_lt _ (by norm_num)
  have := read_events_loop_count (bufOf data) (min data.length BUF_CAP) h256
    fuel 0 evs hok hmin
  unfold header_size BUF_CAP at this
  omega

/-- C10 witness: a single minimal record (`event_len = 24`) decodes to
one event, and one is at most 170. -/
theorem read_events_bounded_count_witness :
    ([⟨0, some 0, 0⟩] : List FanotifyEvent).length ≤ 170 :=
  read_events_bounded_count (24 :: List.replicate 23 0) 2 [⟨0, some 0, 0⟩]
    (by decide) (by decide)
